import Mathlib

/-!
A shallow embedding of the Honey Badger BFT driver from `src/honey_badger.rs`
(`HoneyBadger` and its entry points `input` / `handle_message`), together with
theorems about its epoch window, decryption bookkeeping and batch emission.

Node identifiers and epochs are natural numbers.  `BTreeMap`s are embedded as
key-sorted association lists (`afind?` / `ainsert` / `aerase` mirror `get`,
`insert` and `remove`).  The out-of-crate collaborators (the `common_subset`
module and the threshold-crypto primitives) are not part of the source tree;
they are modelled from the specification's interface description and marked as
such below.  The mutually recursive message-handling nest of the source is
embedded as a single function `exec` over a call descriptor, structurally
recursive on a fuel parameter; fuel only truncates deep recursion, every
non-recursive state update of the source is performed before fuel is consumed
where an invariant depends on it (epoch increment, message wrapping).
-/

namespace HB

/-- Serialized byte strings (`Vec<u8>` in the source). -/
abbrev Bytes := List Nat

/-! ### Association-list maps standing in for `BTreeMap<u64, _>` / `BTreeMap<NodeUid, _>` -/

/-- Lookup in an association list, as `BTreeMap::get`. -/
def afind? {α : Type} : List (Nat × α) → Nat → Option α
  | [], _ => none
  | (k, v) :: rest, k0 => if k0 = k then some v else afind? rest k0

/-- Sorted insert-or-replace, as `BTreeMap::insert` (keys kept in increasing order). -/
def ainsert {α : Type} : List (Nat × α) → Nat → α → List (Nat × α)
  | [], k0, v0 => [(k0, v0)]
  | (k, v) :: rest, k0, v0 =>
    if k0 < k then (k0, v0) :: (k, v) :: rest
    else if k0 = k then (k0, v0) :: rest
    else (k, v) :: ainsert rest k0 v0

/-- Key removal, as `BTreeMap::remove`. -/
def aerase {α : Type} : List (Nat × α) → Nat → List (Nat × α)
  | [], _ => []
  | (k, v) :: rest, k0 => if k0 = k then rest else (k, v) :: aerase rest k0

/-- The key list of a map, as `BTreeMap::keys`. -/
def akeys {α : Type} (m : List (Nat × α)) : List Nat := m.map Prod.fst

/-! ### Crypto collaborators.

Modelled from the spec: the `crypto` crate (threshold encryption) is outside
`src/`.  Spec section 6 requires `encrypt`, ciphertext self-verification,
`decrypt_share`, `verify_decryption_share` and `combine_shares` which succeeds
exactly when strictly more than `f` valid, index-distinct shares are supplied.
A ciphertext carries its plaintext bytes; a decryption share carries the key
share identity that produced it and the ciphertext bytes it was derived from. -/

/-- Modelled from the spec: an opaque threshold ciphertext (crypto crate, not in `src/`). -/
structure Ciphertext where
  payload : Bytes
deriving DecidableEq, Repr

/-- Modelled from the spec: an opaque threshold decryption share (crypto crate, not in `src/`). -/
structure DecryptionShare where
  keyId : Nat
  payload : Bytes
deriving DecidableEq, Repr

/-- Modelled from the spec: `public_key().encrypt(bytes)` (randomness is irrelevant here). -/
def pkEncrypt (bs : Bytes) : Ciphertext := ⟨bs⟩

/-- Modelled from the spec: ciphertext self-verification (`Ciphertext::verify`). -/
def Ciphertext.verify (_ : Ciphertext) : Bool := true

/-- Modelled from the spec: `public_key_share.verify_decryption_share(share, ct)`:
the share must come from the holder of that key share and match the ciphertext. -/
def pksVerifyShare (pk : Nat) (sh : DecryptionShare) (ct : Ciphertext) : Bool :=
  sh.keyId == pk && sh.payload == ct.payload

/-- Modelled from the spec: `public_key_set().decrypt(indexed_shares, ct)` succeeds
exactly when strictly more than `f` valid index-distinct shares are supplied. -/
def pksDecrypt (f : Nat) (shares : List (Nat × DecryptionShare)) (ct : Ciphertext) :
    Option Bytes :=
  if f < shares.length && shares.all (fun p => p.2.payload == ct.payload) then
    some ct.payload
  else none

/-! ### Serialization (`bincode`), as used for contributions and ciphertexts.

Contributions `C` are natural numbers.  The encodings are tagged so that
ill-formed byte strings are detected, as the spec requires of the serializer. -/

/-- `bincode::serialize` of a contribution. -/
def serializeContrib (c : Nat) : Bytes := [1, c]

/-- `bincode::deserialize::<C>` of a contribution. -/
def deserializeContrib : Bytes → Option Nat
  | [1, c] => some c
  | _ => none

/-- `bincode::serialize` of a ciphertext. -/
def serializeCiphertext (ct : Ciphertext) : Bytes := 2 :: ct.payload

/-- `bincode::deserialize::<Ciphertext>`. -/
def deserializeCiphertext : Bytes → Option Ciphertext
  | 2 :: rest => some ⟨rest⟩
  | _ => none

/-! ### `NetworkInfo` -/

/-- The immutable network data (`messaging::NetworkInfo`, consumed by `src/honey_badger.rs`). -/
structure NetworkInfo where
  ourUid : Nat
  validators : List Nat
  numFaulty : Nat
deriving DecidableEq, Repr

/-- `NetworkInfo::is_node_validator(id)`. -/
def NetworkInfo.is_node_validator (ni : NetworkInfo) (id : Nat) : Bool :=
  ni.validators.contains id

/-- `NetworkInfo::is_validator()` for the local node. -/
def NetworkInfo.is_validator (ni : NetworkInfo) : Bool :=
  ni.validators.contains ni.ourUid

/-- `NetworkInfo::public_key_share(id)`: present exactly for validators. -/
def NetworkInfo.public_key_share (ni : NetworkInfo) (id : Nat) : Option Nat :=
  if ni.validators.contains id then some id else none

/-- Position of a node in a validator list. -/
def idxOf : List Nat → Nat → Nat
  | [], _ => 0
  | y :: rest, x => if x = y then 0 else idxOf rest x + 1

/-- `NetworkInfo::node_index(id).unwrap()`. -/
def NetworkInfo.node_index (ni : NetworkInfo) (id : Nat) : Nat :=
  idxOf ni.validators id

/-- Modelled from the spec: `secret_key_share().decrypt_share(ct)`; our key share
always yields a share tied to our identity. -/
def NetworkInfo.decrypt_share (ni : NetworkInfo) (ct : Ciphertext) : Option DecryptionShare :=
  some ⟨ni.ourUid, ct.payload⟩

/-! ### The `common_subset` collaborator.

Modelled from the spec: the `common_subset` module is not under `src/`; spec
section 6 describes it as an opaque per-epoch instance with `input`,
`handle_message` and `terminated`, whose steps may carry outputs
`map NodeUid -> bytes`.  Completion is an external event of the opaque
sub-protocol, so it is modelled as being commanded by a dedicated message
variant carrying the agreed map; `input` records the proposal and emits one
broadcast message, as the real instance broadcasts the proposed value. -/

/-- Modelled from the spec: opaque `common_subset::Message`. -/
inductive CSMessage where
  | ordinary (tag : Nat)
  | deliver (out : List (Nat × Bytes))
deriving DecidableEq, Repr

/-- Modelled from the spec: a `CommonSubset` instance for one epoch. -/
structure CommonSubset where
  epoch : Nat
  inputs : List Bytes
  delivered : Bool
deriving DecidableEq, Repr

/-- Target of an outgoing message (`messaging::Target`). -/
inductive Target where
  | all
  | node (id : Nat)
deriving DecidableEq, Repr

/-- The fault kinds recorded by the Honey Badger core (`fault_log::FaultKind`). -/
inductive FaultKind where
  | unverifiedDecryptionShareSender
  | invalidCiphertext
  | shareDecryptionFailed
  | batchDeserializationFailed
deriving DecidableEq, Repr

/-- A fault log: ordered `(node, kind)` evidence (`fault_log::FaultLog`). -/
abbrev FaultLog := List (Nat × FaultKind)

/-- Modelled from the spec: the step returned by a `CommonSubset` call. -/
structure CSStep where
  output : List (List (Nat × Bytes))
  faultLog : FaultLog
  messages : List (Target × CSMessage)
deriving DecidableEq, Repr

/-- Modelled from the spec: `CommonSubset::new(netinfo, epoch)`. -/
def CommonSubset.new (e : Nat) : CommonSubset := ⟨e, [], false⟩

/-- Modelled from the spec: `CommonSubset::input(bytes)` records the proposal and
broadcasts it to the other validators. -/
def CommonSubset.input (cs : CommonSubset) (bs : Bytes) : CommonSubset × CSStep :=
  ({ cs with inputs := cs.inputs ++ [bs] },
    ⟨[], [], [(Target.all, CSMessage.ordinary cs.inputs.length)]⟩)

/-- Modelled from the spec: `CommonSubset::handle_message`; a `deliver` message is
the external event by which the opaque sub-protocol reaches agreement. -/
def CommonSubset.handle_message (cs : CommonSubset) (_sender : Nat) (m : CSMessage) :
    CommonSubset × CSStep :=
  match m with
  | .ordinary _ => (cs, ⟨[], [], []⟩)
  | .deliver out => ({ cs with delivered := true }, ⟨[out], [], []⟩)

/-- Modelled from the spec: `CommonSubset::terminated`. -/
def CommonSubset.terminated (cs : CommonSubset) : Bool := cs.delivered

/-! ### Honey Badger messages and state (`src/honey_badger.rs`) -/

/-- `MessageContent<NodeUid>`. -/
inductive MessageContent where
  | commonSubset (m : CSMessage)
  | decryptionShare (proposer_id : Nat) (share : DecryptionShare)
deriving DecidableEq, Repr

/-- `Message<NodeUid>`: content annotated with an epoch. -/
structure Message where
  epoch : Nat
  content : MessageContent
deriving DecidableEq, Repr

/-- `MessageContent::with_epoch`. -/
def MessageContent.with_epoch (c : MessageContent) (e : Nat) : Message := ⟨e, c⟩

/-- `TargetedMessage<Message, NodeUid>`. -/
structure TargetedMessage where
  target : Target
  message : Message
deriving DecidableEq, Repr

/-- A batch of contributions output for one epoch (`Batch<C, NodeUid>`). -/
structure Batch where
  epoch : Nat
  contributions : List (Nat × Nat)
deriving DecidableEq, Repr

/-- `HoneyBadgerStep`: outputs, fault log and outgoing messages drained at an entry point. -/
structure HBStep where
  output : List Batch
  faultLog : FaultLog
  messages : List TargetedMessage
deriving DecidableEq, Repr

/-- The errors an entry point can surface; only `UnknownSender` arises in the model. -/
inductive HBError where
  | unknownSender
deriving DecidableEq, Repr

/-- The `HoneyBadger` instance state (field for field as in the source). -/
structure HoneyBadger where
  netinfo : NetworkInfo
  epoch : Nat
  has_input : Bool
  common_subsets : List (Nat × CommonSubset)
  max_future_epochs : Nat
  messages : List TargetedMessage
  output : List Batch
  incoming_queue : List (Nat × List (Nat × MessageContent))
  received_shares : List (Nat × List (Nat × List (Nat × DecryptionShare)))
  decrypted_contributions : List (Nat × Bytes)
  ciphertexts : List (Nat × List (Nat × Ciphertext))
deriving DecidableEq, Repr

/-- `HoneyBadgerBuilder::build` with an explicit `max_future_epochs`. -/
def build (netinfo : NetworkInfo) (max_future_epochs : Nat) : HoneyBadger :=
  { netinfo := netinfo
    epoch := 0
    has_input := false
    common_subsets := []
    max_future_epochs := max_future_epochs
    messages := []
    output := []
    incoming_queue := []
    received_shares := []
    decrypted_contributions := []
    ciphertexts := [] }

/-- Public accessor `has_input()`: non-validators count as having provided input. -/
def HoneyBadger.hasInput (hb : HoneyBadger) : Bool :=
  !hb.netinfo.is_validator || hb.has_input

/-- `verify_decryption_share` on the instance: resolve the sender's public key
share and verify against it. -/
def HoneyBadger.verify_decryption_share (hb : HoneyBadger) (sender_id : Nat)
    (share : DecryptionShare) (ciphertext : Ciphertext) : Bool :=
  match hb.netinfo.public_key_share sender_id with
  | some pk => pksVerifyShare pk share ciphertext
  | none => false

/-- `try_decrypt_proposer_contribution`: decrypt one proposer's contribution at the
current epoch, when a ciphertext and more than `f` shares are available. -/
def HoneyBadger.try_decrypt_proposer_contribution (hb : HoneyBadger) (proposer_id : Nat) :
    HoneyBadger :=
  if (afind? hb.decrypted_contributions proposer_id).isSome then hb
  else
    match (afind? hb.received_shares hb.epoch).bind (fun sh => afind? sh proposer_id) with
    | none => hb
    | some shares =>
      if shares.length ≤ hb.netinfo.numFaulty then hb
      else
        match (afind? hb.ciphertexts hb.epoch).bind (fun cts => afind? cts proposer_id) with
        | none => hb
        | some ciphertext =>
          let indexed := shares.map (fun p => (hb.netinfo.node_index p.1, p.2))
          match pksDecrypt hb.netinfo.numFaulty indexed ciphertext with
          | some contrib =>
            { hb with decrypted_contributions :=
                ainsert hb.decrypted_contributions proposer_id contrib }
          | none => hb

/-- `all_contributions_decrypted`: the current epoch's ciphertext keys coincide with
the decrypted-contribution keys (false when no ciphertexts were output yet). -/
def HoneyBadger.all_contributions_decrypted (hb : HoneyBadger) : Bool :=
  match afind? hb.ciphertexts hb.epoch with
  | none => false
  | some cts => akeys cts == akeys hb.decrypted_contributions

/-- `verify_pending_decryption_shares`: buffered shares of the current epoch that
fail verification against a freshly decoded ciphertext; returns the offending
senders and the corresponding faults. -/
def HoneyBadger.verify_pending_decryption_shares (hb : HoneyBadger) (proposer_id : Nat)
    (ciphertext : Ciphertext) : List Nat × FaultLog :=
  match (afind? hb.received_shares hb.epoch).bind (fun e => afind? e proposer_id) with
  | none => ([], [])
  | some sender_shares =>
    sender_shares.foldl
      (fun acc p =>
        if hb.verify_decryption_share p.1 p.2 ciphertext then acc
        else (acc.1 ++ [p.1], acc.2 ++ [(p.1, FaultKind.unverifiedDecryptionShareSender)]))
      ([], [])

/-- `remove_incorrect_decryption_shares`. -/
def HoneyBadger.remove_incorrect_decryption_shares (hb : HoneyBadger) (proposer_id : Nat)
    (incorrect_senders : List Nat) : HoneyBadger :=
  match afind? hb.received_shares hb.epoch with
  | none => hb
  | some e =>
    match afind? e proposer_id with
    | none => hb
    | some sender_shares =>
      let cleaned := incorrect_senders.foldl (fun m s => aerase m s) sender_shares
      { hb with received_shares :=
          ainsert hb.received_shares hb.epoch (ainsert e proposer_id cleaned) }

/-- `remove_terminated(from_epoch)`: drop terminated ACS instances of past epochs. -/
def HoneyBadger.remove_terminated (hb : HoneyBadger) (from_epoch : Nat) : HoneyBadger :=
  { hb with common_subsets := (hb.common_subsets.filter
      (fun p => !(from_epoch ≤ p.1 && p.1 < hb.epoch && p.2.terminated))) }

/-- The contributions that survive batch deserialization (`try_output_batch`'s
`flat_map`, successful arm). -/
def good_contributions (dc : List (Nat × Bytes)) : List (Nat × Nat) :=
  dc.filterMap (fun p => (deserializeContrib p.2).map (fun c => (p.1, c)))

/-- The `BatchDeserializationFailed` faults of `try_output_batch`'s `flat_map`,
in iteration order. -/
def bad_faults (dc : List (Nat × Bytes)) : FaultLog :=
  (dc.filter (fun p => (deserializeContrib p.2).isNone)).map
    (fun p => (p.1, FaultKind.batchDeserializationFailed))

/-- The epoch-local cleanup and increment at the head of `update_epoch`. -/
def HoneyBadger.epoch_cleanup (hb : HoneyBadger) : HoneyBadger :=
  { hb with
    ciphertexts := aerase hb.ciphertexts hb.epoch
    decrypted_contributions := []
    received_shares := aerase hb.received_shares hb.epoch
    epoch := hb.epoch + 1
    has_input := false }

/-- `MessageQueue::extend_with_epoch`: wrap a sub-algorithm step's messages with the
current epoch and append them to the outgoing queue (head of `process_output`). -/
def HoneyBadger.add_cs_messages (hb : HoneyBadger) (step : CSStep) : HoneyBadger :=
  { hb with messages := (hb.messages ++ step.messages.map
      (fun p => ⟨p.1, (MessageContent.commonSubset p.2).with_epoch hb.epoch⟩)) }

/-! ### The mutually recursive handling nest.

The source functions `update_epoch`, `try_output_batch`,
`try_decrypt_and_output_batch`, `handle_decryption_share_message`,
`send_decryption_share`, `send_decryption_shares`, `process_output`,
`handle_common_subset_message`, `handle_message_content` and `propose` call
each other in a cycle (a batch emission advances the epoch, which drains the
deferred queue, whose messages are handled in turn).  They are embedded as one
function `exec` over a call descriptor, structurally recursive on fuel; every
recursive call consumes one unit.  Fuel exhaustion leaves the state unchanged,
except that `update_epoch` always performs its cleanup-and-increment and
`process_output` always wraps and queues the sub-step's messages, since those
effects precede any recursion in the source. -/

/-- Call descriptors for the recursive nest, one per source function plus its
`for` loops. -/
inductive Call where
  | upd (hb : HoneyBadger)
  | queueLoop (hb : HoneyBadger) (epoch : Nat) (entries : List (Nat × MessageContent))
  | tob (hb : HoneyBadger)
  | tdob (hb : HoneyBadger)
  | hdsm (hb : HoneyBadger) (sender_id epoch proposer_id : Nat) (share : DecryptionShare)
  | sds1 (hb : HoneyBadger) (proposer_id : Nat) (ciphertext : Ciphertext)
  | sharesLoop (hb : HoneyBadger) (entries : List (Nat × Bytes)) (acc : List (Nat × Ciphertext))
  | sdss (hb : HoneyBadger) (cs_output : List (Nat × Bytes))
  | outputsLoop (hb : HoneyBadger) (outs : List (List (Nat × Bytes)))
  | po (hb : HoneyBadger) (step : CSStep) (epochOpt : Option Nat)
  | hcsm (hb : HoneyBadger) (sender_id epoch : Nat) (message : CSMessage)
  | hmc (hb : HoneyBadger) (sender_id epoch : Nat) (content : MessageContent)
  | prop (hb : HoneyBadger) (proposal : Nat)

/-- Result of a nest call: the new state, and the auxiliary values the individual
source functions return (`ciphertexts` accumulator of `send_decryption_shares`,
validity flag of `send_decryption_share`, fault log). -/
structure ExecRes where
  hb : HoneyBadger
  cts : List (Nat × Ciphertext)
  valid : Bool
  fl : FaultLog
deriving DecidableEq, Repr

/-- Result carrying only a state and a fault log. -/
def mkRes (hb : HoneyBadger) (fl : FaultLog) : ExecRes := ⟨hb, [], true, fl⟩

/-- The recursive handling nest of `src/honey_badger.rs`; see the section comment. -/
def exec : Nat → Call → ExecRes
  | 0, c =>
    match c with
    | .upd hb => mkRes hb.epoch_cleanup []
    | .queueLoop hb _ _ => mkRes hb []
    | .tob hb => mkRes hb []
    | .tdob hb => mkRes hb []
    | .hdsm hb _ _ _ _ => mkRes hb []
    | .sds1 hb _ _ => ⟨hb, [], false, []⟩
    | .sharesLoop hb _ acc => ⟨hb, acc, true, []⟩
    | .sdss hb _ => mkRes hb []
    | .outputsLoop hb _ => mkRes hb []
    | .po hb step _ => mkRes (hb.add_cs_messages step) step.faultLog
    | .hcsm hb _ _ _ => mkRes hb []
    | .hmc hb _ _ _ => mkRes hb []
    | .prop hb _ => mkRes hb []
  | fuel+1, .upd hb =>
    -- update_epoch: cleanup, admit deferred messages for the new window edge,
    -- then re-attempt decryption and batch emission.
    let hb1 := hb.epoch_cleanup
    let max_epoch := hb1.epoch + hb1.max_future_epochs
    let queued := (afind? hb1.incoming_queue max_epoch).getD []
    let hb2 := { hb1 with incoming_queue := aerase hb1.incoming_queue max_epoch }
    let r1 := exec fuel (.queueLoop hb2 max_epoch queued)
    let r2 := exec fuel (.tdob r1.hb)
    mkRes r2.hb (r1.fl ++ r2.fl)
  | fuel+1, .queueLoop hb epoch entries =>
    -- the deferred-message loop inside update_epoch
    match entries with
    | [] => mkRes hb []
    | (sender_id, content) :: rest =>
      let r1 := exec fuel (.hmc hb sender_id epoch content)
      let r2 := exec fuel (.queueLoop r1.hb epoch rest)
      mkRes r2.hb (r1.fl ++ r2.fl)
  | fuel+1, .tob hb =>
    -- try_output_batch
    if !hb.all_contributions_decrypted then mkRes hb []
    else
      let batch : Batch := ⟨hb.epoch, good_contributions hb.decrypted_contributions⟩
      let hb1 := { hb with output := hb.output ++ [batch] }
      let r := exec fuel (.upd hb1)
      mkRes r.hb (bad_faults hb.decrypted_contributions ++ r.fl)
  | fuel+1, .tdob hb =>
    -- try_decrypt_and_output_batch
    match afind? hb.ciphertexts hb.epoch with
    | none => mkRes hb []
    | some cts =>
      let hb1 := (akeys cts).foldl (fun h p => h.try_decrypt_proposer_contribution p) hb
      exec fuel (.tob hb1)
  | fuel+1, .hdsm hb sender_id epoch proposer_id share =>
    -- handle_decryption_share_message
    let ctOpt := (afind? hb.ciphertexts epoch).bind (fun cm => afind? cm proposer_id)
    if (match ctOpt with
        | some ct => !hb.verify_decryption_share sender_id share ct
        | none => false) then
      mkRes hb [(sender_id, FaultKind.unverifiedDecryptionShareSender)]
    else
      let emap := (afind? hb.received_shares epoch).getD []
      let pmap := (afind? emap proposer_id).getD []
      let hb1 := { hb with received_shares := (ainsert hb.received_shares epoch
          (ainsert emap proposer_id (ainsert pmap sender_id share))) }
      if epoch = hb1.epoch then
        let hb2 := hb1.try_decrypt_proposer_contribution proposer_id
        let r := exec fuel (.tdob hb2)
        mkRes r.hb r.fl
      else mkRes hb1 []
  | fuel+1, .sds1 hb proposer_id ciphertext =>
    -- send_decryption_share
    if !hb.netinfo.is_validator then ⟨hb, [], ciphertext.verify, []⟩
    else
      match hb.netinfo.decrypt_share ciphertext with
      | none => ⟨hb, [], false, []⟩
      | some share =>
        let content := MessageContent.decryptionShare proposer_id share
        let hb1 := { hb with messages :=
            hb.messages ++ [⟨Target.all, content.with_epoch hb.epoch⟩] }
        let r := exec fuel (.hdsm hb1 hb1.netinfo.ourUid hb1.epoch proposer_id share)
        ⟨r.hb, [], true, r.fl⟩
  | fuel+1, .sharesLoop hb entries acc =>
    -- the cs_output loop inside send_decryption_shares
    match entries with
    | [] => ⟨hb, acc, true, []⟩
    | (proposer_id, v) :: rest =>
      match deserializeCiphertext v with
      | none =>
        let r := exec fuel (.sharesLoop hb rest acc)
        ⟨r.hb, r.cts, true, (proposer_id, FaultKind.invalidCiphertext) :: r.fl⟩
      | some ciphertext =>
        let vp := hb.verify_pending_decryption_shares proposer_id ciphertext
        let hb1 := hb.remove_incorrect_decryption_shares proposer_id vp.1
        let r1 := exec fuel (.sds1 hb1 proposer_id ciphertext)
        if r1.valid then
          let hb2 := r1.hb.try_decrypt_proposer_contribution proposer_id
          let r2 := exec fuel (.sharesLoop hb2 rest (ainsert acc proposer_id ciphertext))
          ⟨r2.hb, r2.cts, true, vp.2 ++ r1.fl ++ r2.fl⟩
        else
          let r2 := exec fuel (.sharesLoop r1.hb rest acc)
          ⟨r2.hb, r2.cts, true,
            vp.2 ++ r1.fl ++ [(proposer_id, FaultKind.shareDecryptionFailed)] ++ r2.fl⟩
  | fuel+1, .sdss hb cs_output =>
    -- send_decryption_shares
    let r1 := exec fuel (.sharesLoop hb cs_output [])
    let hb2 := { r1.hb with ciphertexts := ainsert r1.hb.ciphertexts r1.hb.epoch r1.cts }
    let r2 := exec fuel (.tdob hb2)
    mkRes r2.hb (r1.fl ++ r2.fl)
  | fuel+1, .outputsLoop hb outs =>
    -- the cs_output loop inside process_output
    match outs with
    | [] => mkRes hb []
    | o :: rest =>
      let r1 := exec fuel (.sdss hb o)
      let r2 := exec fuel (.outputsLoop r1.hb rest)
      mkRes r2.hb (r1.fl ++ r2.fl)
  | fuel+1, .po hb step epochOpt =>
    -- process_output
    let hb1 := hb.add_cs_messages step
    if epochOpt.isNone || epochOpt == some hb1.epoch then
      let r := exec fuel (.outputsLoop hb1 step.output)
      mkRes r.hb (step.faultLog ++ r.fl)
    else mkRes hb1 step.faultLog
  | fuel+1, .hcsm hb sender_id epoch message =>
    -- handle_common_subset_message
    let csOpt := afind? hb.common_subsets epoch
    if csOpt = none ∧ epoch < hb.epoch then mkRes hb []
    else
      let cs := csOpt.getD (CommonSubset.new epoch)
      let hm := cs.handle_message sender_id message
      let hb1 := { hb with common_subsets := ainsert hb.common_subsets epoch hm.1 }
      let r := exec fuel (.po hb1 hm.2 (some epoch))
      mkRes (r.hb.remove_terminated epoch) r.fl
  | fuel+1, .hmc hb sender_id epoch content =>
    -- handle_message_content
    match content with
    | .commonSubset m => exec fuel (.hcsm hb sender_id epoch m)
    | .decryptionShare proposer_id share =>
      exec fuel (.hdsm hb sender_id epoch proposer_id share)
  | fuel+1, .prop hb proposal =>
    -- propose
    if !hb.netinfo.is_validator then mkRes hb []
    else
      let cs := (afind? hb.common_subsets hb.epoch).getD (CommonSubset.new hb.epoch)
      let ser_prop := serializeContrib proposal
      let ciphertext := pkEncrypt ser_prop
      let hb1 := { hb with has_input := true }
      let ci := cs.input (serializeCiphertext ciphertext)
      let hb2 := { hb1 with common_subsets := ainsert hb1.common_subsets hb1.epoch ci.1 }
      exec fuel (.po hb2 ci.2 none)

/-! ### Named wrappers with the source's function names. -/

/-- `update_epoch`. -/
def HoneyBadger.update_epoch (fuel : Nat) (hb : HoneyBadger) : HoneyBadger × FaultLog :=
  let r := exec fuel (.upd hb); (r.hb, r.fl)

/-- `try_output_batch`. -/
def HoneyBadger.try_output_batch (fuel : Nat) (hb : HoneyBadger) : HoneyBadger × FaultLog :=
  let r := exec fuel (.tob hb); (r.hb, r.fl)

/-- `try_decrypt_and_output_batch`. -/
def HoneyBadger.try_decrypt_and_output_batch (fuel : Nat) (hb : HoneyBadger) :
    HoneyBadger × FaultLog :=
  let r := exec fuel (.tdob hb); (r.hb, r.fl)

/-- `handle_decryption_share_message`. -/
def HoneyBadger.handle_decryption_share_message (fuel : Nat) (hb : HoneyBadger)
    (sender_id epoch proposer_id : Nat) (share : DecryptionShare) : HoneyBadger × FaultLog :=
  let r := exec fuel (.hdsm hb sender_id epoch proposer_id share); (r.hb, r.fl)

/-- `send_decryption_shares`. -/
def HoneyBadger.send_decryption_shares (fuel : Nat) (hb : HoneyBadger)
    (cs_output : List (Nat × Bytes)) : HoneyBadger × FaultLog :=
  let r := exec fuel (.sdss hb cs_output); (r.hb, r.fl)

/-- `process_output`. -/
def HoneyBadger.process_output (fuel : Nat) (hb : HoneyBadger) (step : CSStep)
    (epochOpt : Option Nat) : HoneyBadger × FaultLog :=
  let r := exec fuel (.po hb step epochOpt); (r.hb, r.fl)

/-- `handle_common_subset_message`. -/
def HoneyBadger.handle_common_subset_message (fuel : Nat) (hb : HoneyBadger)
    (sender_id epoch : Nat) (message : CSMessage) : HoneyBadger × FaultLog :=
  let r := exec fuel (.hcsm hb sender_id epoch message); (r.hb, r.fl)

/-- `handle_message_content`. -/
def HoneyBadger.handle_message_content (fuel : Nat) (hb : HoneyBadger)
    (sender_id epoch : Nat) (content : MessageContent) : HoneyBadger × FaultLog :=
  let r := exec fuel (.hmc hb sender_id epoch content); (r.hb, r.fl)

/-- `propose`. -/
def HoneyBadger.propose (fuel : Nat) (hb : HoneyBadger) (proposal : Nat) :
    HoneyBadger × FaultLog :=
  let r := exec fuel (.prop hb proposal); (r.hb, r.fl)

/-- `step`: drain the output and message queues into the returned step. -/
def HoneyBadger.step_return (hb : HoneyBadger) (fl : FaultLog) : HoneyBadger × HBStep :=
  ({ hb with output := [], messages := [] }, ⟨hb.output, fl, hb.messages⟩)

/-- Entry point `input`. -/
def HoneyBadger.input (fuel : Nat) (hb : HoneyBadger) (proposal : Nat) :
    Except HBError (HoneyBadger × HBStep) :=
  let p := hb.propose fuel proposal
  .ok (p.1.step_return p.2)

/-- Entry point `handle_message`: reject unknown senders, defer messages beyond the
epoch window, drop messages from past epochs, dispatch current-epoch content. -/
def HoneyBadger.handle_message (fuel : Nat) (hb : HoneyBadger) (sender_id : Nat)
    (message : Message) : Except HBError (HoneyBadger × HBStep) :=
  if !hb.netinfo.is_node_validator sender_id then .error .unknownSender
  else
    let epoch := message.epoch
    let content := message.content
    if hb.epoch + hb.max_future_epochs < epoch then
      let q := (afind? hb.incoming_queue epoch).getD []
      let hb1 := { hb with incoming_queue := (ainsert hb.incoming_queue epoch
        (q ++ [(sender_id, content)])) }
      .ok (hb1.step_return [])
    else if epoch = hb.epoch then
      let r := hb.handle_message_content fuel sender_id epoch content
      .ok (r.1.step_return r.2)
    else
      .ok (hb.step_return [])

/-- One external stimulus: a local contribution or a peer message. -/
inductive Event where
  | ein (proposal : Nat)
  | emsg (sender_id : Nat) (message : Message)
deriving DecidableEq, Repr

/-- Drive a sequence of entry-point calls, collecting every batch drained from the
returned steps in order. -/
def run_events (fuel : Nat) (hb : HoneyBadger) : List Event → HoneyBadger × List Batch
  | [] => (hb, [])
  | e :: rest =>
    let next :=
      match e with
      | .ein c =>
        match hb.input fuel c with
        | .ok (hb1, st) => (hb1, st.output)
        | .error _ => (hb, [])
      | .emsg s m =>
        match hb.handle_message fuel s m with
        | .ok (hb1, st) => (hb1, st.output)
        | .error _ => (hb, [])
    let r := run_events fuel next.1 rest
    (r.1, next.2 ++ r.2)

instance {ε α : Type} [DecidableEq ε] [DecidableEq α] : DecidableEq (Except ε α) := fun a b =>
  match a, b with
  | .error e, .error f => decidable_of_iff (e = f) (by simp)
  | .ok x, .ok y => decidable_of_iff (x = y) (by simp)
  | .error _, .ok _ => isFalse (by simp)
  | .ok _, .error _ => isFalse (by simp)

/-! ### Map lemmas -/

theorem akeys_ainsert_mem {α : Type} (m : List (Nat × α)) (k0 : Nat) (v : α) (x : Nat)
    (hx : x ∈ akeys (ainsert m k0 v)) : x = k0 ∨ x ∈ akeys m := by
  induction m with
  | nil => simp [ainsert, akeys] at hx; exact Or.inl hx
  | cons p rest ih =>
    obtain ⟨k, v'⟩ := p
    simp only [ainsert] at hx
    by_cases h1 : k0 < k
    · simp only [if_pos h1, akeys, List.map_cons, List.mem_cons] at hx
      simpa [akeys] using hx
    · by_cases h2 : k0 = k
      · simp only [if_neg h1, if_pos h2, akeys, List.map_cons, List.mem_cons] at hx
        simpa [akeys, h2] using hx
      · simp only [if_neg h1, if_neg h2, akeys, List.map_cons, List.mem_cons] at hx
        rcases hx with h | h
        · exact Or.inr (by simp [akeys, h])
        · rcases ih h with h' | h'
          · exact Or.inl h'
          · exact Or.inr (by simp [akeys] at h' ⊢; exact Or.inr h')

theorem akeys_aerase_mem {α : Type} (m : List (Nat × α)) (k0 : Nat) (x : Nat)
    (hx : x ∈ akeys (aerase m k0)) : x ∈ akeys m := by
  induction m with
  | nil => simp [aerase, akeys] at hx
  | cons p rest ih =>
    obtain ⟨k, v⟩ := p
    simp only [aerase] at hx
    by_cases h1 : k0 = k
    · rw [if_pos h1] at hx
      simp only [akeys, List.map_cons, List.mem_cons]
      exact Or.inr (by simpa [akeys] using hx)
    · rw [if_neg h1] at hx
      simp only [akeys, List.map_cons, List.mem_cons] at hx ⊢
      rcases hx with h | h
      · exact Or.inl h
      · exact Or.inr (ih (by simpa [akeys] using h))

theorem afind?_ainsert_self {α : Type} (m : List (Nat × α)) (k : Nat) (v : α) :
    afind? (ainsert m k v) k = some v := by
  induction m with
  | nil => simp [ainsert, afind?]
  | cons p rest ih =>
    obtain ⟨k', v'⟩ := p
    simp only [ainsert]
    by_cases h1 : k < k'
    · simp [if_pos h1, afind?]
    · by_cases h2 : k = k'
      · simp [if_neg h1, if_pos h2, afind?]
      · simp only [if_neg h1, if_neg h2, afind?]
        exact ih

/-! ### The evolution relation.

`KeyInv` is the epoch-indexed key bound of the state maps; `Evolves a b` records
that a nest call can only advance the epoch, preserves `max_future_epochs`,
appends exactly the batches for epochs `[a.epoch, b.epoch)` in order to the
output queue, and preserves `KeyInv`.  `EvolvesU` is the variant for
`update_epoch`, which advances past an epoch whose batch was already pushed by
its caller `try_output_batch`. -/

/-- Keys of `ciphertexts` never exceed the current epoch; keys of `received_shares`
never exceed the epoch-window edge. -/
def KeyInv (hb : HoneyBadger) : Prop :=
  (∀ k ∈ akeys hb.ciphertexts, k ≤ hb.epoch) ∧
  (∀ k ∈ akeys hb.received_shares, k ≤ hb.epoch + hb.max_future_epochs)

/-- `b`'s output extends `a`'s by batches whose epochs are `s, s+1, ...` (`n` of them). -/
def outputExtends (a b : HoneyBadger) (s n : Nat) : Prop :=
  ∃ t, b.output = a.output ++ t ∧ t.map Batch.epoch = List.range' s n

/-- What one call of the handling nest can do to the state. -/
def Evolves (a b : HoneyBadger) : Prop :=
  a.epoch ≤ b.epoch ∧ b.max_future_epochs = a.max_future_epochs ∧
  outputExtends a b a.epoch (b.epoch - a.epoch) ∧ (KeyInv a → KeyInv b)

/-- What `update_epoch` does: like `Evolves`, but the epoch strictly advances and
the batch for `a.epoch` itself was pushed by the caller. -/
def EvolvesU (a b : HoneyBadger) : Prop :=
  a.epoch < b.epoch ∧ b.max_future_epochs = a.max_future_epochs ∧
  outputExtends a b (a.epoch + 1) (b.epoch - (a.epoch + 1)) ∧ (KeyInv a → KeyInv b)

theorem keyinv_of_fields {a b : HoneyBadger} (hct : b.ciphertexts = a.ciphertexts)
    (hrs : b.received_shares = a.received_shares) (he : b.epoch = a.epoch)
    (hm : b.max_future_epochs = a.max_future_epochs) : KeyInv a → KeyInv b := by
  intro h
  obtain ⟨h1, h2⟩ := h
  constructor
  · intro k hk
    rw [he]
    exact h1 k (hct ▸ hk)
  · intro k hk
    rw [he, hm]
    exact h2 k (hrs ▸ hk)

theorem evolves_of_fields {a b : HoneyBadger} (he : b.epoch = a.epoch)
    (ho : b.output = a.output) (hm : b.max_future_epochs = a.max_future_epochs)
    (hk : KeyInv a → KeyInv b) : Evolves a b := by
  refine ⟨le_of_eq he.symm, hm, ⟨[], by simp [ho], ?_⟩, hk⟩
  simp [he]

theorem evolves_rfl (a : HoneyBadger) : Evolves a a :=
  evolves_of_fields rfl rfl rfl id

theorem evolves_trans {a b c : HoneyBadger} (h1 : Evolves a b) (h2 : Evolves b c) :
    Evolves a c := by
  obtain ⟨he1, hm1, ⟨t1, ho1, hmap1⟩, hk1⟩ := h1
  obtain ⟨he2, hm2, ⟨t2, ho2, hmap2⟩, hk2⟩ := h2
  refine ⟨le_trans he1 he2, hm2.trans hm1,
    ⟨t1 ++ t2, by rw [ho2, ho1, List.append_assoc], ?_⟩, fun h => hk2 (hk1 h)⟩
  rw [List.map_append, hmap1, hmap2]
  have hr := List.range'_append a.epoch (b.epoch - a.epoch) (c.epoch - b.epoch) 1
  have e1 : a.epoch + 1 * (b.epoch - a.epoch) = b.epoch := by omega
  have e2 : c.epoch - b.epoch + (b.epoch - a.epoch) = c.epoch - a.epoch := by omega
  rw [e1, e2] at hr
  exact hr

theorem try_decrypt_shape (hb : HoneyBadger) (p : Nat) :
    ∃ d, hb.try_decrypt_proposer_contribution p = { hb with decrypted_contributions := d } := by
  unfold HoneyBadger.try_decrypt_proposer_contribution
  repeat' split
  all_goals first
    | exact ⟨_, rfl⟩
    | (dsimp only
       split
       all_goals exact ⟨_, rfl⟩)

theorem try_decrypt_evolves (hb : HoneyBadger) (p : Nat) :
    Evolves hb (hb.try_decrypt_proposer_contribution p) := by
  obtain ⟨d, hd⟩ := try_decrypt_shape hb p
  rw [hd]
  exact evolves_of_fields rfl rfl rfl (keyinv_of_fields rfl rfl rfl rfl)

theorem foldl_try_decrypt_shape (ps : List Nat) (hb : HoneyBadger) :
    ∃ d, ps.foldl (fun h p => h.try_decrypt_proposer_contribution p) hb =
      { hb with decrypted_contributions := d } := by
  induction ps generalizing hb with
  | nil => exact ⟨hb.decrypted_contributions, rfl⟩
  | cons p rest ih =>
    obtain ⟨d1, h1⟩ := try_decrypt_shape hb p
    obtain ⟨d2, h2⟩ := ih { hb with decrypted_contributions := d1 }
    refine ⟨d2, ?_⟩
    rw [List.foldl_cons, h1, h2]

theorem foldl_try_decrypt_evolves (ps : List Nat) (hb : HoneyBadger) :
    Evolves hb (ps.foldl (fun h p => h.try_decrypt_proposer_contribution p) hb) := by
  obtain ⟨d, hd⟩ := foldl_try_decrypt_shape ps hb
  rw [hd]
  exact evolves_of_fields rfl rfl rfl (keyinv_of_fields rfl rfl rfl rfl)

theorem remove_incorrect_shape (hb : HoneyBadger) (p : Nat) (inc : List Nat) :
    ∃ rs, hb.remove_incorrect_decryption_shares p inc = { hb with received_shares := rs } ∧
      ∀ x ∈ akeys rs, x = hb.epoch ∨ x ∈ akeys hb.received_shares := by
  unfold HoneyBadger.remove_incorrect_decryption_shares
  repeat' split
  all_goals first
    | exact ⟨hb.received_shares, rfl, fun x hx => Or.inr hx⟩
    | exact ⟨_, rfl, fun x hx => akeys_ainsert_mem _ _ _ _ hx⟩

theorem remove_incorrect_evolves (hb : HoneyBadger) (p : Nat) (inc : List Nat) :
    Evolves hb (hb.remove_incorrect_decryption_shares p inc) := by
  obtain ⟨rs, hrs, hkeys⟩ := remove_incorrect_shape hb p inc
  rw [hrs]
  refine evolves_of_fields rfl rfl rfl ?_
  intro h
  obtain ⟨h1, h2⟩ := h
  refine ⟨h1, ?_⟩
  intro k hk
  rcases hkeys k hk with h | h
  · subst h
    exact Nat.le_add_right _ _
  · exact h2 k h

theorem epoch_cleanup_keyinv (hb : HoneyBadger) : KeyInv hb → KeyInv hb.epoch_cleanup := by
  intro h
  obtain ⟨h1, h2⟩ := h
  constructor
  · intro k hk
    simp only [HoneyBadger.epoch_cleanup] at hk ⊢
    have := h1 k (akeys_aerase_mem _ _ _ hk)
    omega
  · intro k hk
    simp only [HoneyBadger.epoch_cleanup] at hk ⊢
    have := h2 k (akeys_aerase_mem _ _ _ hk)
    omega

theorem add_cs_messages_evolves (hb : HoneyBadger) (step : CSStep) :
    Evolves hb (hb.add_cs_messages step) :=
  evolves_of_fields rfl rfl rfl (keyinv_of_fields rfl rfl rfl rfl)

theorem remove_terminated_evolves (hb : HoneyBadger) (e : Nat) :
    Evolves hb (hb.remove_terminated e) :=
  evolves_of_fields rfl rfl rfl (keyinv_of_fields rfl rfl rfl rfl)

theorem evolvesU_of_cleanup {hb hb2 F : HoneyBadger} (h2 : hb2.epoch = hb.epoch + 1)
    (ho : hb2.output = hb.output) (hm : hb2.max_future_epochs = hb.max_future_epochs)
    (hk : KeyInv hb → KeyInv hb2) (hE : Evolves hb2 F) : EvolvesU hb F := by
  obtain ⟨he, hmE, ⟨t, hoE, hmap⟩, hkE⟩ := hE
  refine ⟨by omega, by rw [hmE, hm], ⟨t, by rw [hoE, ho], ?_⟩, fun h => hkE (hk h)⟩
  rw [hmap, h2]

theorem evolves_of_push {hb F : HoneyBadger} (cont : List (Nat × Nat))
    (hU : EvolvesU { hb with output := hb.output ++ [Batch.mk hb.epoch cont] } F) :
    Evolves hb F := by
  obtain ⟨hlt, hm, ⟨t, ho, hmap⟩, hk⟩ := hU
  refine ⟨le_of_lt hlt, hm, ⟨Batch.mk hb.epoch cont :: t, ?_, ?_⟩,
    fun h => hk (keyinv_of_fields rfl rfl rfl rfl h)⟩
  · rw [ho]; simp
  · simp only [List.map_cons, hmap]
    have hd : F.epoch - hb.epoch = (F.epoch - (hb.epoch + 1)) + 1 := by
      simp only at hlt; omega
    rw [hd, List.range'_succ]

theorem evolves_rs_insert {hb : HoneyBadger} (epoch : Nat)
    (v : List (Nat × List (Nat × DecryptionShare)))
    (h : epoch ≤ hb.epoch + hb.max_future_epochs) :
    Evolves hb { hb with received_shares := ainsert hb.received_shares epoch v } := by
  refine evolves_of_fields rfl rfl rfl ?_
  intro hI
  obtain ⟨h1, h2⟩ := hI
  refine ⟨h1, ?_⟩
  intro k hk
  rcases akeys_ainsert_mem _ _ _ _ hk with he | hm
  · show k ≤ hb.epoch + hb.max_future_epochs
    omega
  · exact h2 k hm

theorem evolves_ct_insert {hb : HoneyBadger} (v : List (Nat × Ciphertext)) :
    Evolves hb { hb with ciphertexts := ainsert hb.ciphertexts hb.epoch v } := by
  refine evolves_of_fields rfl rfl rfl ?_
  intro hI
  obtain ⟨h1, h2⟩ := hI
  refine ⟨?_, h2⟩
  intro k hk
  rcases akeys_ainsert_mem _ _ _ _ hk with he | hm
  · show k ≤ hb.epoch
    omega
  · exact h1 k hm

theorem execres_hb (a : HoneyBadger) (b : List (Nat × Ciphertext)) (c : Bool) (d : FaultLog) :
    (ExecRes.mk a b c d).hb = a := rfl

theorem execres_fl (a : HoneyBadger) (b : List (Nat × Ciphertext)) (c : Bool) (d : FaultLog) :
    (ExecRes.mk a b c d).fl = d := rfl

/-- The statement proved about each call of the nest. -/
def CallSpec (fuel : Nat) (c : Call) : Prop :=
  match c with
  | .upd hb => EvolvesU hb (exec fuel (.upd hb)).hb
  | .queueLoop hb epoch entries =>
    epoch ≤ hb.epoch + hb.max_future_epochs →
      Evolves hb (exec fuel (.queueLoop hb epoch entries)).hb
  | .tob hb => Evolves hb (exec fuel (.tob hb)).hb
  | .tdob hb => Evolves hb (exec fuel (.tdob hb)).hb
  | .hdsm hb s epoch p sh =>
    epoch ≤ hb.epoch + hb.max_future_epochs →
      Evolves hb (exec fuel (.hdsm hb s epoch p sh)).hb
  | .sds1 hb p ct => Evolves hb (exec fuel (.sds1 hb p ct)).hb
  | .sharesLoop hb entries acc => Evolves hb (exec fuel (.sharesLoop hb entries acc)).hb
  | .sdss hb o => Evolves hb (exec fuel (.sdss hb o)).hb
  | .outputsLoop hb outs => Evolves hb (exec fuel (.outputsLoop hb outs)).hb
  | .po hb st eo => Evolves hb (exec fuel (.po hb st eo)).hb
  | .hcsm hb s epoch m => Evolves hb (exec fuel (.hcsm hb s epoch m)).hb
  | .hmc hb s epoch ct =>
    epoch ≤ hb.epoch + hb.max_future_epochs →
      Evolves hb (exec fuel (.hmc hb s epoch ct)).hb
  | .prop hb c0 => Evolves hb (exec fuel (.prop hb c0)).hb

theorem exec_spec : ∀ (fuel : Nat) (c : Call), CallSpec fuel c := by
  intro fuel
  induction fuel with
  | zero =>
    intro c
    cases c <;> simp only [CallSpec, exec, mkRes, execres_hb]
    case upd hb =>
      refine ⟨Nat.lt_succ_self _, rfl, ⟨[], by simp [HoneyBadger.epoch_cleanup], ?_⟩,
        epoch_cleanup_keyinv hb⟩
      simp [HoneyBadger.epoch_cleanup, List.range']
    case queueLoop hb epoch entries => exact fun _ => evolves_rfl hb
    case tob hb => exact evolves_rfl hb
    case tdob hb => exact evolves_rfl hb
    case hdsm hb s epoch p sh => exact fun _ => evolves_rfl hb
    case sds1 hb p ct => exact evolves_rfl hb
    case sharesLoop hb entries acc => exact evolves_rfl hb
    case sdss hb o => exact evolves_rfl hb
    case outputsLoop hb outs => exact evolves_rfl hb
    case po hb st eo => exact add_cs_messages_evolves hb st
    case hcsm hb s epoch m => exact evolves_rfl hb
    case hmc hb s epoch ct => exact fun _ => evolves_rfl hb
    case prop hb c0 => exact evolves_rfl hb
  | succ n ih =>
    intro c
    cases c
    case upd hb =>
      simp only [CallSpec, exec, mkRes, execres_hb]
      have hmain : Evolves
          { hb.epoch_cleanup with incoming_queue :=
              (aerase hb.epoch_cleanup.incoming_queue
                (hb.epoch_cleanup.epoch + hb.epoch_cleanup.max_future_epochs)) }
          (exec n (Call.tdob (exec n (Call.queueLoop
            { hb.epoch_cleanup with incoming_queue :=
                (aerase hb.epoch_cleanup.incoming_queue
                  (hb.epoch_cleanup.epoch + hb.epoch_cleanup.max_future_epochs)) }
            (hb.epoch_cleanup.epoch + hb.epoch_cleanup.max_future_epochs)
            ((afind? hb.epoch_cleanup.incoming_queue
              (hb.epoch_cleanup.epoch + hb.epoch_cleanup.max_future_epochs)).getD []))).hb)).hb :=
        evolves_trans (ih (Call.queueLoop _ _ _) (le_refl _)) (ih (Call.tdob _))
      refine evolvesU_of_cleanup ?_ ?_ ?_ ?_ hmain
      · rfl
      · rfl
      · rfl
      · exact fun h => keyinv_of_fields rfl rfl rfl rfl (epoch_cleanup_keyinv hb h)
    case queueLoop hb epoch entries =>
      simp only [CallSpec]
      intro hEp
      cases entries with
      | nil => simp only [exec, mkRes]; exact evolves_rfl hb
      | cons e rest =>
        obtain ⟨s0, ct0⟩ := e
        simp only [exec, mkRes]
        have h1 : Evolves hb (exec n (.hmc hb s0 epoch ct0)).hb := ih (Call.hmc hb s0 epoch ct0) hEp
        have h2 : Evolves (exec n (.hmc hb s0 epoch ct0)).hb
            (exec n (.queueLoop (exec n (.hmc hb s0 epoch ct0)).hb epoch rest)).hb := by
          refine ih (Call.queueLoop _ _ _) ?_
          obtain ⟨he, hm, _, _⟩ := h1
          omega
        exact evolves_trans h1 h2
    case tob hb =>
      simp only [CallSpec, exec, mkRes, execres_hb]
      split
      · exact evolves_rfl hb
      · exact evolves_of_push _ (ih (Call.upd _))
    case tdob hb =>
      simp only [CallSpec, exec, mkRes, execres_hb]
      split
      · exact evolves_rfl hb
      · exact evolves_trans (foldl_try_decrypt_evolves _ hb) (ih (Call.tob _))
    case hdsm hb s epoch p sh =>
      simp only [CallSpec]
      intro hEp
      simp only [exec, mkRes, execres_hb]
      split
      · exact evolves_rfl hb
      · split
        · refine evolves_trans (evolves_rs_insert epoch
            (ainsert ((afind? hb.received_shares epoch).getD []) p
              (ainsert ((afind? ((afind? hb.received_shares epoch).getD []) p).getD []) s sh))
            hEp) ?_
          simp only [execres_hb]
          exact evolves_trans (try_decrypt_evolves _ p) (ih (Call.tdob _))
        · exact evolves_rs_insert epoch
            (ainsert ((afind? hb.received_shares epoch).getD []) p
              (ainsert ((afind? ((afind? hb.received_shares epoch).getD []) p).getD []) s sh))
            hEp
    case sds1 hb p ct =>
      simp only [CallSpec, exec, mkRes, execres_hb]
      split
      · exact evolves_rfl hb
      · simp only [NetworkInfo.decrypt_share, execres_hb]
        refine evolves_trans ?_
          (ih (Call.hdsm { hb with messages := (hb.messages ++
              [⟨Target.all, (MessageContent.decryptionShare p
                (⟨hb.netinfo.ourUid, ct.payload⟩ : DecryptionShare)).with_epoch hb.epoch⟩]) }
            hb.netinfo.ourUid hb.epoch p ⟨hb.netinfo.ourUid, ct.payload⟩)
            (Nat.le_add_right _ _))
        exact evolves_of_fields rfl rfl rfl (keyinv_of_fields rfl rfl rfl rfl)
    case sharesLoop hb entries acc =>
      simp only [CallSpec]
      cases entries with
      | nil => simp only [exec]; exact evolves_rfl hb
      | cons e rest =>
        obtain ⟨p0, v0⟩ := e
        simp only [exec]
        split
        · exact ih (Call.sharesLoop hb rest acc)
        · rename_i ct0 heq
          split
          · refine evolves_trans (remove_incorrect_evolves hb p0
              (hb.verify_pending_decryption_shares p0 ct0).1) ?_
            refine evolves_trans (ih (Call.sds1
              (hb.remove_incorrect_decryption_shares p0
                (hb.verify_pending_decryption_shares p0 ct0).1) p0 ct0)) ?_
            refine evolves_trans (try_decrypt_evolves _ p0) ?_
            exact ih (Call.sharesLoop ((exec n (Call.sds1
              (hb.remove_incorrect_decryption_shares p0
                (hb.verify_pending_decryption_shares p0 ct0).1)
              p0 ct0)).hb.try_decrypt_proposer_contribution p0) rest (ainsert acc p0 ct0))
          · refine evolves_trans (remove_incorrect_evolves hb p0
              (hb.verify_pending_decryption_shares p0 ct0).1) ?_
            refine evolves_trans (ih (Call.sds1
              (hb.remove_incorrect_decryption_shares p0
                (hb.verify_pending_decryption_shares p0 ct0).1) p0 ct0)) ?_
            exact ih (Call.sharesLoop (exec n (Call.sds1
              (hb.remove_incorrect_decryption_shares p0
                (hb.verify_pending_decryption_shares p0 ct0).1) p0 ct0)).hb rest acc)
    case sdss hb o =>
      simp only [CallSpec, exec, mkRes, execres_hb]
      refine evolves_trans (ih (Call.sharesLoop hb o [])) ?_
      refine evolves_trans (evolves_ct_insert ((exec n (Call.sharesLoop hb o [])).cts)) ?_
      exact ih (Call.tdob _)
    case outputsLoop hb outs =>
      simp only [CallSpec]
      cases outs with
      | nil => simp only [exec, mkRes]; exact evolves_rfl hb
      | cons o rest =>
        simp only [exec, mkRes]
        exact evolves_trans (ih (Call.sdss hb o)) (ih (Call.outputsLoop _ rest))
    case po hb st eo =>
      simp only [CallSpec, exec, mkRes, execres_hb]
      split
      · exact evolves_trans (add_cs_messages_evolves hb st) (ih (Call.outputsLoop _ _))
      · exact add_cs_messages_evolves hb st
    case hcsm hb s epoch m =>
      simp only [CallSpec, exec, mkRes, execres_hb]
      split
      · exact evolves_rfl hb
      · refine evolves_trans ?_ (evolves_trans
          (ih (Call.po
            { hb with common_subsets := (ainsert hb.common_subsets epoch
                (((afind? hb.common_subsets epoch).getD
                  (CommonSubset.new epoch)).handle_message s m).1) }
            (((afind? hb.common_subsets epoch).getD
              (CommonSubset.new epoch)).handle_message s m).2
            (some epoch)))
          (remove_terminated_evolves _ epoch))
        exact evolves_of_fields rfl rfl rfl (keyinv_of_fields rfl rfl rfl rfl)
    case hmc hb s epoch ct =>
      simp only [CallSpec]
      intro hEp
      cases ct with
      | commonSubset m => simp only [exec]; exact ih (Call.hcsm hb s epoch m)
      | decryptionShare p0 sh0 => simp only [exec]; exact ih (Call.hdsm hb s epoch p0 sh0) hEp
    case prop hb c0 =>
      simp only [CallSpec, exec, mkRes, execres_hb]
      split
      · exact evolves_rfl hb
      · refine evolves_trans ?_
          (ih (Call.po
            { hb with has_input := true, common_subsets := (ainsert hb.common_subsets hb.epoch
                (((afind? hb.common_subsets hb.epoch).getD (CommonSubset.new hb.epoch)).input
                  (serializeCiphertext (pkEncrypt (serializeContrib c0)))).1) }
            (((afind? hb.common_subsets hb.epoch).getD (CommonSubset.new hb.epoch)).input
              (serializeCiphertext (pkEncrypt (serializeContrib c0)))).2
            none))
        exact evolves_of_fields rfl rfl rfl (keyinv_of_fields rfl rfl rfl rfl)

theorem range'_chain (s m n : Nat) :
    List.range' s m ++ List.range' (s + m) n = List.range' s (m + n) := by
  have h := List.range'_append s m n 1
  have e1 : s + 1 * m = s + m := by omega
  rw [e1] at h
  rw [h, Nat.add_comm]

theorem range'_glue (a b k : Nat) (h : a ≤ b) :
    List.range' a (b - a) ++ List.range' b k = List.range' a (b - a + k) := by
  have e1 : b = a + (b - a) := by omega
  nth_rewrite 2 [e1]
  exact range'_chain a (b - a) k

theorem input_trace (fuel : Nat) (hb : HoneyBadger) (c : Nat) (hout : hb.output = []) :
    ∃ hb1 st, hb.input fuel c = .ok (hb1, st) ∧ hb1.output = [] ∧
      st.output.map Batch.epoch = List.range' hb.epoch (hb1.epoch - hb.epoch) ∧
      hb.epoch ≤ hb1.epoch ∧ (KeyInv hb → KeyInv hb1) := by
  have hE := exec_spec fuel (Call.prop hb c)
  simp only [CallSpec] at hE
  obtain ⟨he, hm, ⟨t, ho, hmap⟩, hk⟩ := hE
  refine ⟨_, _, rfl, rfl, ?_, he, fun h => keyinv_of_fields rfl rfl rfl rfl (hk h)⟩
  show ((exec fuel (Call.prop hb c)).hb.output).map Batch.epoch = _
  rw [ho, hout]
  simpa using hmap

theorem handle_message_trace (fuel : Nat) (hb : HoneyBadger) (s : Nat) (m : Message)
    (hout : hb.output = []) :
    (hb.handle_message fuel s m = .error .unknownSender) ∨
    ∃ hb1 st, hb.handle_message fuel s m = .ok (hb1, st) ∧ hb1.output = [] ∧
      st.output.map Batch.epoch = List.range' hb.epoch (hb1.epoch - hb.epoch) ∧
      hb.epoch ≤ hb1.epoch ∧ (KeyInv hb → KeyInv hb1) := by
  cases hval : hb.netinfo.is_node_validator s with
  | false =>
    left
    simp [HoneyBadger.handle_message, hval]
  | true =>
    right
    by_cases hw : hb.epoch + hb.max_future_epochs < m.epoch
    · refine ⟨(({ hb with incoming_queue := (ainsert hb.incoming_queue m.epoch
          (((afind? hb.incoming_queue m.epoch).getD []) ++ [(s, m.content)])) }).step_return []).1,
        (({ hb with incoming_queue := (ainsert hb.incoming_queue m.epoch
          (((afind? hb.incoming_queue m.epoch).getD []) ++ [(s, m.content)])) }).step_return []).2,
        ?_, rfl, ?_, le_refl _, ?_⟩
      · simp [HoneyBadger.handle_message, hval, hw]
      · show List.map Batch.epoch hb.output = _
        rw [hout]
        simp [HoneyBadger.step_return]
      · exact keyinv_of_fields rfl rfl rfl rfl
    · by_cases he : m.epoch = hb.epoch
      · have hE := exec_spec fuel (Call.hmc hb s m.epoch m.content)
        simp only [CallSpec] at hE
        have hE2 := hE (by omega)
        obtain ⟨hle, hm2, ⟨t, ho, hmap⟩, hk⟩ := hE2
        refine ⟨(((exec fuel (Call.hmc hb s m.epoch m.content)).hb).step_return
            ((exec fuel (Call.hmc hb s m.epoch m.content)).fl)).1,
          (((exec fuel (Call.hmc hb s m.epoch m.content)).hb).step_return
            ((exec fuel (Call.hmc hb s m.epoch m.content)).fl)).2,
          ?_, rfl, ?_, hle, fun h => keyinv_of_fields rfl rfl rfl rfl (hk h)⟩
        · simp [HoneyBadger.handle_message, hval, hw, he, HoneyBadger.handle_message_content]
        · show ((exec fuel (Call.hmc hb s m.epoch m.content)).hb.output).map Batch.epoch = _
          rw [ho, hout]
          simpa using hmap
      · refine ⟨(hb.step_return []).1, (hb.step_return []).2, ?_, rfl, ?_, le_refl _, ?_⟩
        · simp [HoneyBadger.handle_message, hval, hw, he]
        · show List.map Batch.epoch hb.output = _
          rw [hout]
          simp [HoneyBadger.step_return]
        · exact keyinv_of_fields rfl rfl rfl rfl

theorem run_events_trace (fuel : Nat) (es : List Event) : ∀ hb : HoneyBadger,
    hb.output = [] →
    (run_events fuel hb es).2.map Batch.epoch =
      List.range' hb.epoch ((run_events fuel hb es).2.length) ∧
    (run_events fuel hb es).1.epoch = hb.epoch + (run_events fuel hb es).2.length ∧
    (KeyInv hb → KeyInv (run_events fuel hb es).1) ∧
    (run_events fuel hb es).1.output = [] := by
  induction es with
  | nil =>
    intro hb hout
    simp [run_events, List.range', hout]
  | cons e rest ih =>
    intro hb hout
    have hstep : ∃ hb1 out1, (run_events fuel hb (e :: rest)).1 = (run_events fuel hb1 rest).1 ∧
        (run_events fuel hb (e :: rest)).2 = out1 ++ (run_events fuel hb1 rest).2 ∧
        hb1.output = [] ∧ out1.map Batch.epoch = List.range' hb.epoch (hb1.epoch - hb.epoch) ∧
        hb.epoch ≤ hb1.epoch ∧ (KeyInv hb → KeyInv hb1) := by
      cases e with
      | ein c =>
        obtain ⟨hb1, st, heq, h1, h2, h3, h4⟩ := input_trace fuel hb c hout
        refine ⟨hb1, st.output, ?_, ?_, h1, h2, h3, h4⟩
        · simp [run_events, heq]
        · simp [run_events, heq]
      | emsg s m =>
        rcases handle_message_trace fuel hb s m hout with herr | ⟨hb1, st, heq, h1, h2, h3, h4⟩
        · refine ⟨hb, [], ?_, ?_, hout, ?_, le_refl _, id⟩
          · simp [run_events, herr]
          · simp [run_events, herr]
          · simp
        · refine ⟨hb1, st.output, ?_, ?_, h1, h2, h3, h4⟩
          · simp [run_events, heq]
          · simp [run_events, heq]
    obtain ⟨hb1, out1, hfst, hsnd, hout1, hmap1, hle1, hk1⟩ := hstep
    obtain ⟨ihm, ihe, ihk, iho⟩ := ih hb1 hout1
    have hlen1 : out1.length = hb1.epoch - hb.epoch := by
      have := congrArg List.length hmap1
      simpa using this
    refine ⟨?_, ?_, ?_, ?_⟩
    · rw [hsnd, List.map_append, hmap1, ihm,
        range'_glue hb.epoch hb1.epoch (run_events fuel hb1 rest).2.length hle1]
      congr 1
      simp [List.length_append, hlen1]
    · rw [hfst, ihe, hsnd]
      simp [List.length_append, hlen1]
      omega
    · intro h
      rw [hfst]
      exact ihk (hk1 h)
    · rw [hfst]
      exact iho

/-! ### Claim-specific fixtures -/

/-- A four-validator network with one tolerated fault, node 0 local. -/
def niC1 : NetworkInfo := ⟨0, [0, 1, 2, 3], 1⟩

/-- Fresh instance for the C1 scenario (window size 3). -/
def hbC1 : HoneyBadger := build niC1 3

/-- C1: the spec says every message with `epoch <= e <= epoch + max_future_epochs`
from a validator is dispatched, but `handle_message` dispatches only `e = epoch`:
a message for epoch 1 at current epoch 0 with window 3 is silently discarded
(state unchanged, empty step) instead of being processed. -/
theorem claim_c1_in_window_future_message_dropped :
    hbC1.netinfo.is_node_validator 1 = true ∧
    hbC1.epoch < 1 ∧ 1 ≤ hbC1.epoch + hbC1.max_future_epochs ∧
    hbC1.handle_message 5 1 ⟨1, .commonSubset (.ordinary 0)⟩ = .ok (hbC1, ⟨[], [], []⟩) := by
  decide



/-- C4: a message from a sender outside the validator set is rejected with
`UnknownSender`; no state is returned, so the caller's instance is untouched. -/
theorem claim_c4_unknown_sender (fuel : Nat) (hb : HoneyBadger) (sender_id : Nat)
    (message : Message) (h : hb.netinfo.is_node_validator sender_id = false) :
    hb.handle_message fuel sender_id message = .error .unknownSender := by
  simp [HoneyBadger.handle_message, h]

/-- Fixture for the C4 witness. -/
def hbC4 : HoneyBadger := build ⟨0, [0, 1, 2, 3], 1⟩ 3

/-- C4 witness: node 9 is not a validator and its message is rejected. -/
theorem claim_c4_witness :
    hbC4.netinfo.is_node_validator 9 = false ∧
    hbC4.handle_message 3 9 ⟨0, .commonSubset (.ordinary 0)⟩ = .error .unknownSender :=
  ⟨by decide, claim_c4_unknown_sender 3 hbC4 9 ⟨0, .commonSubset (.ordinary 0)⟩ (by decide)⟩

/-- C5: a validator message beyond the epoch window is appended to
`incoming_queue[epoch]` and nothing else changes; the returned step is empty. -/
theorem claim_c5_future_window_queue (fuel : Nat) (hb : HoneyBadger) (sender_id : Nat)
    (message : Message) (hval : hb.netinfo.is_node_validator sender_id = true)
    (hfut : hb.epoch + hb.max_future_epochs < message.epoch)
    (hout : hb.output = []) (hmsg : hb.messages = []) :
    hb.handle_message fuel sender_id message = .ok
      ({ hb with incoming_queue := (ainsert hb.incoming_queue message.epoch
          (((afind? hb.incoming_queue message.epoch).getD []) ++ [(sender_id, message.content)])) },
        ⟨[], [], []⟩) := by
  obtain ⟨ni, ep, hi, cs, mf, msgs, out, iq, rs, dc, cts⟩ := hb
  obtain ⟨me, mc⟩ := message
  simp only at hout hmsg hfut hval
  subst hout hmsg
  simp [HoneyBadger.handle_message, HoneyBadger.step_return, hval, hfut]

/-- Fixture for the C5 witness (window size 2). -/
def hbC5 : HoneyBadger := build ⟨0, [0, 1, 2, 3], 1⟩ 2

/-- C5 witness: with window `[0, 2]` a message for epoch 7 is queued untouched. -/
theorem claim_c5_witness :
    hbC5.netinfo.is_node_validator 2 = true ∧ hbC5.epoch + hbC5.max_future_epochs < 7 ∧
    hbC5.output = [] ∧ hbC5.messages = [] ∧
    hbC5.handle_message 3 2 ⟨7, .commonSubset (.ordinary 1)⟩ = .ok
      ({ hbC5 with incoming_queue := (ainsert hbC5.incoming_queue 7
          (((afind? hbC5.incoming_queue 7).getD []) ++ [(2, .commonSubset (.ordinary 1))])) },
        ⟨[], [], []⟩) :=
  ⟨by decide, by decide, by decide, by decide,
    claim_c5_future_window_queue 3 hbC5 2 ⟨7, .commonSubset (.ordinary 1)⟩
      (by decide) (by decide) (by decide) (by decide)⟩

/-- C6: a validator message for a past epoch is a no-op: the state is unchanged and
the returned step carries no batches, no faults and no messages. -/
theorem claim_c6_past_epoch_drop (fuel : Nat) (hb : HoneyBadger) (sender_id : Nat)
    (message : Message) (hval : hb.netinfo.is_node_validator sender_id = true)
    (hpast : message.epoch < hb.epoch) (hout : hb.output = []) (hmsg : hb.messages = []) :
    hb.handle_message fuel sender_id message = .ok (hb, ⟨[], [], []⟩) := by
  obtain ⟨ni, ep, hi, cs, mf, msgs, out, iq, rs, dc, cts⟩ := hb
  obtain ⟨me, mc⟩ := message
  simp only at hout hmsg hpast hval
  subst hout hmsg
  have h1 : ¬(ep + mf < me) := by omega
  have h2 : ¬(me = ep) := by omega
  simp [HoneyBadger.handle_message, HoneyBadger.step_return, hval, h1, h2]

/-- Fixture for the C6 witness: an instance already at epoch 5. -/
def hbC6 : HoneyBadger := { build ⟨0, [0, 1, 2, 3], 1⟩ 3 with epoch := 5 }

/-- C6 witness: at epoch 5 a message for epoch 2 is dropped with an empty step. -/
theorem claim_c6_witness :
    hbC6.netinfo.is_node_validator 1 = true ∧ (2 : Nat) < hbC6.epoch ∧
    hbC6.output = [] ∧ hbC6.messages = [] ∧
    hbC6.handle_message 3 1 ⟨2, .commonSubset (.ordinary 0)⟩ = .ok (hbC6, ⟨[], [], []⟩) :=
  ⟨by decide, by decide, by decide, by decide,
    claim_c6_past_epoch_drop 3 hbC6 1 ⟨2, .commonSubset (.ordinary 0)⟩
      (by decide) (by decide) (by decide) (by decide)⟩

/-- C10: for an instance whose own node is not a validator, the public `has_input`
accessor returns true regardless of the internal flag. -/
theorem claim_c10_non_validator_has_input (hb : HoneyBadger)
    (h : hb.netinfo.is_validator = false) : hb.hasInput = true := by
  simp [HoneyBadger.hasInput, h]

/-- Fixture for the C10 witness: our node 9 is outside the validator set. -/
def hbC10 : HoneyBadger := build ⟨9, [0, 1, 2, 3], 1⟩ 3

/-- C10 witness: the internal flag is false yet the accessor returns true. -/
theorem claim_c10_witness :
    hbC10.netinfo.is_validator = false ∧ hbC10.has_input = false ∧ hbC10.hasInput = true :=
  ⟨by decide, by decide, claim_c10_non_validator_has_input hbC10 (by decide)⟩

theorem try_decrypt_cases (hb : HoneyBadger) (p : Nat) :
    hb.try_decrypt_proposer_contribution p = hb ∨
    ∃ shares ct plain,
      afind? hb.decrypted_contributions p = none ∧
      (afind? hb.received_shares hb.epoch).bind (fun sh => afind? sh p) = some shares ∧
      hb.netinfo.numFaulty < shares.length ∧
      (afind? hb.ciphertexts hb.epoch).bind (fun cts => afind? cts p) = some ct ∧
      pksDecrypt hb.netinfo.numFaulty
        (shares.map (fun q => (hb.netinfo.node_index q.1, q.2))) ct = some plain ∧
      hb.try_decrypt_proposer_contribution p =
        { hb with decrypted_contributions := ainsert hb.decrypted_contributions p plain } := by
  unfold HoneyBadger.try_decrypt_proposer_contribution
  split
  · exact Or.inl rfl
  · split
    · exact Or.inl rfl
    · rename_i hns shopt shares hsh
      split
      · exact Or.inl rfl
      · split
        · exact Or.inl rfl
        · rename_i hlen ctopt ct hct
          dsimp only
          split
          · rename_i plain hplain
            refine Or.inr ⟨shares, ct, plain, ?_, hsh, by omega, hct, hplain, rfl⟩
            simpa using hns
          · exact Or.inl rfl

/-- C7: `try_decrypt_proposer_contribution` changes `decrypted_contributions` only
when the current epoch has a ciphertext for the proposer, strictly more than `f`
shares were received, and the threshold combination succeeds; the change is
exactly the insertion of the recovered plaintext. -/
theorem claim_c7_decrypt_conditions (hb : HoneyBadger) (p : Nat)
    (h : (hb.try_decrypt_proposer_contribution p).decrypted_contributions ≠
      hb.decrypted_contributions) :
    ∃ shares ct plain,
      afind? hb.decrypted_contributions p = none ∧
      (afind? hb.received_shares hb.epoch).bind (fun sh => afind? sh p) = some shares ∧
      hb.netinfo.numFaulty < shares.length ∧
      (afind? hb.ciphertexts hb.epoch).bind (fun cts => afind? cts p) = some ct ∧
      pksDecrypt hb.netinfo.numFaulty
        (shares.map (fun q => (hb.netinfo.node_index q.1, q.2))) ct = some plain ∧
      hb.try_decrypt_proposer_contribution p =
        { hb with decrypted_contributions := ainsert hb.decrypted_contributions p plain } := by
  rcases try_decrypt_cases hb p with heq | hr
  · rw [heq] at h
    exact absurd rfl h
  · exact hr

/-- Fixture for the C7 witness: epoch 0 has a ciphertext for proposer 2 and two
verified shares (more than `f = 1`). -/
def hbC7 : HoneyBadger :=
  { build ⟨0, [0, 1, 2, 3], 1⟩ 1 with
    received_shares := [(0, [(2, [(0, ⟨0, [1, 9]⟩), (1, ⟨1, [1, 9]⟩)])])]
    ciphertexts := [(0, [(2, ⟨[1, 9]⟩)])] }

/-- C7 witness: decryption fires on `hbC7` and the advertised conditions hold. -/
theorem claim_c7_witness :
    (hbC7.try_decrypt_proposer_contribution 2).decrypted_contributions ≠
      hbC7.decrypted_contributions ∧
    ∃ shares ct plain,
      afind? hbC7.decrypted_contributions 2 = none ∧
      (afind? hbC7.received_shares hbC7.epoch).bind (fun sh => afind? sh 2) = some shares ∧
      hbC7.netinfo.numFaulty < shares.length ∧
      (afind? hbC7.ciphertexts hbC7.epoch).bind (fun cts => afind? cts 2) = some ct ∧
      pksDecrypt hbC7.netinfo.numFaulty
        (shares.map (fun q => (hbC7.netinfo.node_index q.1, q.2))) ct = some plain ∧
      hbC7.try_decrypt_proposer_contribution 2 =
        { hbC7 with decrypted_contributions := ainsert hbC7.decrypted_contributions 2 plain } :=
  ⟨by decide, claim_c7_decrypt_conditions hbC7 2 (by decide)⟩



theorem exec_outputsLoop_nil (fuel : Nat) (hb : HoneyBadger) :
    exec fuel (.outputsLoop hb []) = mkRes hb [] := by
  cases fuel <;> rfl

theorem exec_po_empty (fuel : Nat) (hb : HoneyBadger) (st : CSStep) (h : st.output = []) :
    exec fuel (.po hb st none) = mkRes (hb.add_cs_messages st) st.faultLog := by
  cases fuel with
  | zero => rfl
  | succ n => simp [exec, h, exec_outputsLoop_nil, mkRes]

/-- Fixtures for C2: a fresh validator instance, the state after a first `input`,
and the state and step after a second `input` in the same epoch. -/
def hbC2a : HoneyBadger := build ⟨0, [0, 1, 2, 3], 1⟩ 3

def hbC2b : HoneyBadger :=
  match hbC2a.input 5 7 with
  | .ok q => q.1
  | .error _ => hbC2a

def hbC2c : HoneyBadger :=
  match hbC2b.input 5 8 with
  | .ok q => q.1
  | .error _ => hbC2b

def stC2 : HBStep :=
  match hbC2b.input 5 8 with
  | .ok q => q.2
  | .error _ => ⟨[], [], []⟩

/-- C2 counterexample: after a first `input` in epoch 0 (`has_input` is true), a
second `input` in the same epoch is neither rejected (it returns `ok`) nor a
no-op (the state changes and outgoing messages are produced). -/
theorem claim_c2_counterexample :
    hbC2b.has_input = true ∧ hbC2b.epoch = 0 ∧
    hbC2b.input 5 8 = .ok (hbC2c, stC2) ∧ hbC2c ≠ hbC2b ∧ stC2.messages ≠ [] := by
  decide

/-- C2 amended: `propose` performs no `has_input` check; a second `input` by a
validator in the same epoch succeeds, keeps `has_input` set, stays in the same
epoch, feeds the freshly encrypted proposal to the epoch's ACS instance again,
and emits outgoing messages. -/
theorem claim_c2_amended_second_input_processed (fuel : Nat) (hb : HoneyBadger) (c : Nat)
    (hv : hb.netinfo.is_validator = true) (_hi : hb.has_input = true) :
    ∃ hb1 st, hb.input (fuel+1) c = .ok (hb1, st) ∧
      hb1.epoch = hb.epoch ∧ hb1.has_input = true ∧
      afind? hb1.common_subsets hb.epoch = some
        (((afind? hb.common_subsets hb.epoch).getD (CommonSubset.new hb.epoch)).input
          (serializeCiphertext (pkEncrypt (serializeContrib c)))).1 ∧
      st.messages ≠ [] := by
  have hprop : exec (fuel+1) (Call.prop hb c) = mkRes
      (HoneyBadger.add_cs_messages
        { hb with has_input := true, common_subsets := (ainsert hb.common_subsets hb.epoch
            (((afind? hb.common_subsets hb.epoch).getD (CommonSubset.new hb.epoch)).input
              (serializeCiphertext (pkEncrypt (serializeContrib c)))).1) }
        (((afind? hb.common_subsets hb.epoch).getD (CommonSubset.new hb.epoch)).input
          (serializeCiphertext (pkEncrypt (serializeContrib c)))).2)
      ((((afind? hb.common_subsets hb.epoch).getD (CommonSubset.new hb.epoch)).input
        (serializeCiphertext (pkEncrypt (serializeContrib c)))).2).faultLog := by
    simp only [exec, hv, Bool.not_true, Bool.false_eq_true, if_false]
    exact exec_po_empty fuel _ _ rfl
  refine ⟨_, _, rfl, ?_, ?_, ?_, ?_⟩
  · show (exec (fuel+1) (Call.prop hb c)).hb.epoch = hb.epoch
    rw [hprop]
    rfl
  · show (exec (fuel+1) (Call.prop hb c)).hb.has_input = true
    rw [hprop]
    rfl
  · show afind? (exec (fuel+1) (Call.prop hb c)).hb.common_subsets hb.epoch = _
    rw [hprop]
    show afind? (ainsert hb.common_subsets hb.epoch _) hb.epoch = _
    exact afind?_ainsert_self _ _ _
  · show (exec (fuel+1) (Call.prop hb c)).hb.messages ≠ []
    rw [hprop]
    simp [HoneyBadger.add_cs_messages, CommonSubset.input, mkRes]

/-- C2 witness: the amended statement holds concretely on `hbC2b`. -/
theorem claim_c2_witness :
    hbC2b.netinfo.is_validator = true ∧ hbC2b.has_input = true ∧
    (∃ hb1 st, hbC2b.input (3+1) 9 = .ok (hb1, st) ∧
      hb1.epoch = hbC2b.epoch ∧ hb1.has_input = true ∧
      afind? hb1.common_subsets hbC2b.epoch = some
        (((afind? hbC2b.common_subsets hbC2b.epoch).getD (CommonSubset.new hbC2b.epoch)).input
          (serializeCiphertext (pkEncrypt (serializeContrib 9)))).1 ∧
      st.messages ≠ []) :=
  ⟨by decide, by decide,
    claim_c2_amended_second_input_processed 3 hbC2b 9 (by decide) (by decide)⟩



/-- Fixture for the C3 counterexample: window size 1, fresh instance. -/
def hbC3 : HoneyBadger := build ⟨0, [0, 1, 2, 3], 1⟩ 1

/-- C3 counterexample events: a decryption share for epoch 2 arrives early (beyond
the window, so it is deferred), then ACS delivers an epoch-0 output whose only
ciphertext is invalid, emitting an empty batch and advancing to epoch 1, which
admits the deferred share and stores it under epoch 2. -/
def evC3 : List Event :=
  [.emsg 1 ⟨2, .decryptionShare 3 ⟨1, [7]⟩⟩,
   .emsg 1 ⟨0, .commonSubset (.deliver [(2, [99])])⟩]

/-- C3 counterexample: after the second entry point returns, `received_shares`
holds an entry for epoch 2 while the current epoch is 1, so the claimed bound
`key <= epoch` fails for `received_shares`. -/
theorem claim_c3_counterexample :
    (run_events 30 hbC3 evC3).1.epoch = 1 ∧
    2 ∈ akeys (run_events 30 hbC3 evC3).1.received_shares ∧
    ¬(2 ≤ (run_events 30 hbC3 evC3).1.epoch) := by
  decide

/-- C3 amended: after any sequence of entry points on a freshly built instance,
every key of `ciphertexts` is at most the current epoch, and every key of
`received_shares` is at most `epoch + max_future_epochs` (deferred decryption
shares admitted at the window edge are stored under their future epoch);
`decrypted_contributions` is keyed by proposer and scoped to the current epoch. -/
theorem claim_c3_amended_key_bounds (fuel : Nat) (ni : NetworkInfo) (mf : Nat)
    (es : List Event) : KeyInv (run_events fuel (build ni mf) es).1 := by
  refine (run_events_trace fuel es (build ni mf) rfl).2.2.1 ?_
  constructor
  · intro k hk
    simp [build, akeys] at hk
  · intro k hk
    simp [build, akeys] at hk

/-- C9: over any sequence of entry-point calls on a freshly built instance, the
batches drained from the returned steps carry exactly the epochs
`0, 1, 2, ...` in order (strictly increasing, one per epoch), and the final
epoch equals the number of emitted batches: the epoch is incremented exactly
once per emitted batch and never otherwise. -/
theorem claim_c9_batch_epochs_trace (fuel : Nat) (ni : NetworkInfo) (mf : Nat)
    (es : List Event) :
    (run_events fuel (build ni mf) es).2.map Batch.epoch =
      List.range' 0 ((run_events fuel (build ni mf) es).2.length) ∧
    (run_events fuel (build ni mf) es).1.epoch =
      (run_events fuel (build ni mf) es).2.length := by
  have h := run_events_trace fuel es (build ni mf) rfl
  exact ⟨h.1, by have := h.2.1; simpa [build] using this⟩

/-- C8: `try_output_batch` emits a batch for the current epoch exactly when the
decrypted contributions cover the epoch's ciphertext keys; entries whose bytes
fail to deserialize are omitted from the batch and produce
`BatchDeserializationFailed` faults against their proposers, and emission
advances the epoch. -/
theorem claim_c8_batch_emission (fuel : Nat) (hb : HoneyBadger) :
    (hb.all_contributions_decrypted = false →
      hb.try_output_batch (fuel+1) = (hb, [])) ∧
    (hb.all_contributions_decrypted = true →
      ∃ t fl2,
        (hb.try_output_batch (fuel+1)).1.output =
          hb.output ++ Batch.mk hb.epoch (good_contributions hb.decrypted_contributions) :: t ∧
        (hb.try_output_batch (fuel+1)).2 =
          bad_faults hb.decrypted_contributions ++ fl2 ∧
        hb.epoch < (hb.try_output_batch (fuel+1)).1.epoch) := by
  constructor
  · intro hg
    simp [HoneyBadger.try_output_batch, exec, hg, mkRes]
  · intro hg
    have hU := exec_spec fuel (Call.upd { hb with output := (hb.output ++
      [Batch.mk hb.epoch (good_contributions hb.decrypted_contributions)]) })
    simp only [CallSpec] at hU
    obtain ⟨hlt, hm, ⟨t, ho, hmap⟩, hk⟩ := hU
    refine ⟨t, (exec fuel (Call.upd { hb with output := (hb.output ++
      [Batch.mk hb.epoch (good_contributions hb.decrypted_contributions)]) })).fl, ?_, ?_, ?_⟩
    · show (exec (fuel+1) (Call.tob hb)).hb.output = _
      simp only [exec, hg, Bool.not_true, Bool.false_eq_true, if_false, mkRes]
      rw [ho]
      simp
    · show (exec (fuel+1) (Call.tob hb)).fl = _
      simp only [exec, hg, Bool.not_true, Bool.false_eq_true, if_false, mkRes]
    · show hb.epoch < (exec (fuel+1) (Call.tob hb)).hb.epoch
      simp only [exec, hg, Bool.not_true, Bool.false_eq_true, if_false, mkRes]
      exact hlt

/-- Fixture for the C8 witness: epoch 0's ciphertext keys are `{1, 2}`; proposer 1
decrypted to valid bytes, proposer 2 to garbage. -/
def hbC8 : HoneyBadger :=
  { build ⟨0, [0, 1, 2, 3], 1⟩ 3 with
    decrypted_contributions := [(1, [1, 5]), (2, [9])]
    ciphertexts := [(0, [(1, ⟨[1, 5]⟩), (2, ⟨[9]⟩)])] }

/-- C8 witness: on `hbC8` the guard holds, the batch for epoch 0 contains only
proposer 1's contribution, and proposer 2 is faulted. -/
theorem claim_c8_witness :
    hbC8.all_contributions_decrypted = true ∧
    ∃ t fl2,
      (hbC8.try_output_batch (4+1)).1.output =
        hbC8.output ++ Batch.mk hbC8.epoch (good_contributions hbC8.decrypted_contributions) :: t ∧
      (hbC8.try_output_batch (4+1)).2 =
        bad_faults hbC8.decrypted_contributions ++ fl2 ∧
      hbC8.epoch < (hbC8.try_output_batch (4+1)).1.epoch :=
  ⟨by decide, (claim_c8_batch_emission 4 hbC8).2 (by decide)⟩

end HB
